import Mathlib

/-!
Verification of the terminal-maze A* solver (`src/main.py`).

The embedding below mirrors the Python source:
 - `MazeGrid.__init__`  → `mkMazeGrid` (construction returning `Option`,
   `none` standing for the raised `ValueError`),
 - `MazeGrid._find_position` → `find_position`,
 - `MazeGrid.is_valid` → `is_valid`,
 - `MazeGrid.get_neighbors` → `get_neighbors`,
 - `manhattan_distance` → `manhattan_distance`,
 - `a_star_search` → `a_star_step` / `a_star_run` / `a_star_search`
   (the `while` loop is run with explicit fuel; the termination theorem
   shows the chosen fuel is never exhausted, so the fuelled function
   agrees with the Python loop),
 - `reconstruct_path` → `reconstruct_path` (fuelled for the same reason).

Positions are pairs of integers, exactly like the Python `(row, col)`
tuples (neighbour candidates may be negative before the bounds check).
Python dicts keyed by positions are embedded as association lists with
insert-or-replace update (`dictSet`) and first-hit lookup (`dictGet`);
`g_score`/`f_score` lookups yield `Option Nat` with `none` playing
`float('inf')` (the `defaultdict` default): `inf + 1 = inf` and
`inf < x` is false, matching Python float arithmetic.  The Python set
`open_set_hash` is a duplicate-free list with membership, append and
filter as `add`/`discard`.  The `heapq` priority queue holds
`(f_score, counter, position)` triples and always pops the least entry
in lexicographic order; counters of pushed entries are pairwise
distinct, so extraction of a least element by `(f, counter)` is exact.
Grid cell reads out of the stored rectangle (which Python would turn
into an `IndexError` on ragged input) are given the default `' '`;
theorems about construction therefore carry a `rectangular` hypothesis
where that matters.
-/

namespace MazeAStar

/-- Positions are `(row, col)` pairs of integers, like the Python tuples. -/
abbrev Pos := Int × Int

/-- Read cell `(r, c)` of the raw matrix (total, with default `' '`;
in-range reads on rectangular input agree with Python `grid[r][c]`). -/
def cellAt (grid : List (List Char)) (r c : Nat) : Char :=
  (grid.getD r []).getD c ' '

/-- `len(grid[0]) if grid else 0` from `MazeGrid.__init__`. -/
def gridCols (grid : List (List Char)) : Nat :=
  match grid with
  | [] => 0
  | row :: _ => row.length

/-- The input matrix is rectangular: every row has the width used by the
Python code (`len(grid[0])`).  Python indexing in the source only stays
exception-free on such input. -/
def rectangular (grid : List (List Char)) : Bool :=
  grid.all (fun row => decide (row.length = gridCols grid))

/-- `MazeGrid` data: the stored matrix, `rows`, `cols`, `start`, `goal`. -/
structure MazeGrid where
  grid : List (List Char)
  rows : Nat
  cols : Nat
  start : Pos
  goal : Pos

/-- `MazeGrid._find_position`: row-major scan over `range(rows) × range(cols)`,
returning the first cell holding `symbol`. -/
def find_position (grid : List (List Char)) (rows cols : Nat) (symbol : Char) :
    Option Pos :=
  (List.range rows).findSome? fun r =>
    (List.range cols).findSome? fun c =>
      if cellAt grid r c = symbol then some ((r : Int), (c : Int)) else none

/-- `MazeGrid.__init__`: store the matrix and its dimensions, locate `'S'`
and `'G'`; `none` models the raised `ValueError` when either is absent. -/
def mkMazeGrid (grid : List (List Char)) : Option MazeGrid :=
  let rows := grid.length
  let cols := gridCols grid
  match find_position grid rows cols 'S', find_position grid rows cols 'G' with
  | some s, some g =>
      some { grid := grid, rows := rows, cols := cols, start := s, goal := g }
  | _, _ => none

/-- `MazeGrid.is_valid`: bounds check first, then the wall test. -/
def is_valid (m : MazeGrid) (pos : Pos) : Bool :=
  if 0 ≤ pos.1 ∧ pos.1 < (m.rows : Int) ∧ 0 ≤ pos.2 ∧ pos.2 < (m.cols : Int) then
    decide (cellAt m.grid pos.1.toNat pos.2.toNat ≠ '#')
  else false

/-- The four direction offsets of `get_neighbors`: up, down, left, right. -/
def directions : List (Int × Int) := [(-1, 0), (1, 0), (0, -1), (0, 1)]

/-- `MazeGrid.get_neighbors`: append each valid shifted position in the
fixed direction order. -/
def get_neighbors (m : MazeGrid) (pos : Pos) : List Pos :=
  directions.foldl
    (fun neighbors d =>
      let new_pos : Pos := (pos.1 + d.1, pos.2 + d.2)
      if is_valid m new_pos then neighbors ++ [new_pos] else neighbors)
    []

/-- `manhattan_distance`: `|r₁ − r₂| + |c₁ − c₂|` (a natural number). -/
def manhattan_distance (pos1 pos2 : Pos) : Nat :=
  (pos1.1 - pos2.1).natAbs + (pos1.2 - pos2.2).natAbs

/-- Python dict lookup on an association list (first matching key). -/
def dictGet {β : Type} : List (Pos × β) → Pos → Option β
  | [], _ => none
  | (k1, v1) :: rest, k => if k1 = k then some v1 else dictGet rest k

/-- Python dict assignment: replace the value at an existing key, or
append a fresh binding at the end. -/
def dictSet {β : Type} : List (Pos × β) → Pos → β → List (Pos × β)
  | [], k, v => [(k, v)]
  | (k1, v1) :: rest, k, v =>
    if k1 = k then (k, v) :: rest else (k1, v1) :: dictSet rest k v

/-- `a < b` on costs with `none` as `float('inf')`:
`inf` is never below anything, and every number is below `inf`. -/
def ltInf : Option Nat → Option Nat → Bool
  | none, _ => false
  | some _, none => true
  | some a, some b => decide (a < b)

/-- The mutable state of `a_star_search`: the heap contents, the push
counter, `came_from`, both cost tables and the `open_set_hash` set. -/
structure AState where
  open_set : List (Nat × Nat × Pos)
  counter : Nat
  came_from : List (Pos × Pos)
  g_score : List (Pos × Nat)
  f_score : List (Pos × Nat)
  open_set_hash : List Pos

/-- Lexicographic comparison of heap entries by `(f_score, counter)`;
counters of distinct pushed entries never collide, so this is exactly
the `heapq` tuple order. -/
def entryLE (a b : Nat × Nat × Pos) : Bool :=
  decide (a.1 < b.1) || (decide (a.1 = b.1) && decide (a.2.1 ≤ b.2.1))

/-- Extract a least heap entry (`heapq.heappop`): returns it together
with the remaining entries. -/
def popMin : List (Nat × Nat × Pos) →
    Option ((Nat × Nat × Pos) × List (Nat × Nat × Pos))
  | [] => none
  | e :: es =>
    match popMin es with
    | none => some (e, [])
    | some (b, rest) => if entryLE e b then some (e, es) else some (b, e :: rest)

/-- One iteration of the `for neighbor in maze.get_neighbors(current)` body. -/
def relax (m : MazeGrid) (current : Pos) (s : AState) (neighbor : Pos) : AState :=
  match dictGet s.g_score current with
  | none => s
  | some gc =>
    let tentative_g_score := gc + 1
    if ltInf (some tentative_g_score) (dictGet s.g_score neighbor) then
      let fn := tentative_g_score + manhattan_distance neighbor m.goal
      let s1 : AState :=
        { s with
          came_from := dictSet s.came_from neighbor current,
          g_score := dictSet s.g_score neighbor tentative_g_score,
          f_score := dictSet s.f_score neighbor fn }
      if neighbor ∈ s1.open_set_hash then s1
      else
        { s1 with
          counter := s1.counter + 1,
          open_set := s1.open_set ++ [(fn, s1.counter + 1, neighbor)],
          open_set_hash := s1.open_set_hash ++ [neighbor] }
    else s

/-- The whole neighbor loop of one `while` iteration. -/
def expand (m : MazeGrid) (current : Pos) (s : AState) : AState :=
  (get_neighbors m current).foldl (relax m current) s

/-- Helper loop of `reconstruct_path` (`while current in came_from`),
with fuel standing in for the termination the Python loop gets from
acyclicity of `came_from`. -/
def reconstructAux (cf : List (Pos × Pos)) : Nat → Pos → List Pos → List Pos
  | 0, _, path => path
  | fuel + 1, current, path =>
    match dictGet cf current with
    | none => path
    | some prev => reconstructAux cf fuel prev (path ++ [prev])

/-- `reconstruct_path`: backtrack through `came_from` from `current`,
then reverse into start-to-goal order. -/
def reconstruct_path (cf : List (Pos × Pos)) (current : Pos) (fuel : Nat) :
    List Pos :=
  (reconstructAux cf fuel current [current]).reverse

/-- The state right after a pop: the popped entry is gone from the heap and
its cell is discarded from `open_set_hash`. -/
def popState (s : AState) (current : Pos) (rest : List (Nat × Nat × Pos)) :
    AState :=
  { s with
    open_set := rest,
    open_set_hash := s.open_set_hash.filter (fun p => decide (p ≠ current)) }

/-- Result of one `while` iteration: either the loop continues with a new
state, or the function returns (`some path` / `none`). -/
inductive StepRes where
  | cont (s : AState)
  | done (r : Option (List Pos))

/-- One iteration of the `while open_set:` loop of `a_star_search`. -/
def a_star_step (m : MazeGrid) (s : AState) : StepRes :=
  match popMin s.open_set with
  | none => StepRes.done none
  | some (e, rest) =>
    let current := e.2.2
    let s1 : AState :=
      { s with
        open_set := rest,
        open_set_hash := s.open_set_hash.filter (fun p => decide (p ≠ current)) }
    if current = m.goal then
      StepRes.done (some (reconstruct_path s1.came_from current (m.rows * m.cols + 1)))
    else
      StepRes.cont (expand m current s1)

/-- The fuelled `while` loop; `none` is fuel exhaustion (shown unreachable
for the fuel used by `a_star_search`). -/
def a_star_run (m : MazeGrid) : Nat → AState → Option (Option (List Pos))
  | 0, _ => none
  | fuel + 1, s =>
    match a_star_step m s with
    | StepRes.done r => some r
    | StepRes.cont s1 => a_star_run m fuel s1

/-- The state set up by the initialization block of `a_star_search`. -/
def initState (m : MazeGrid) : AState where
  open_set := [(0, 0, m.start)]
  counter := 0
  came_from := []
  g_score := [(m.start, 0)]
  f_score := [(m.start, manhattan_distance m.start m.goal)]
  open_set_hash := [m.start]

/-- Fuel budget for the search loop; the termination theorem shows the
loop always returns within this many iterations. -/
def searchFuel (m : MazeGrid) : Nat := (m.rows * m.cols + 2) ^ 3 + 1

/-- `a_star_search`: run the loop from the initial state. -/
def a_star_search (m : MazeGrid) : Option (List Pos) :=
  (a_star_run m (searchFuel m) (initState m)).getD none

/-- The state after running `n` loop iterations from `s`, when the loop
has not yet returned (used to state invariants that hold throughout a run). -/
def runState (m : MazeGrid) : Nat → AState → Option AState
  | 0, s => some s
  | n + 1, s =>
    match a_star_step m s with
    | StepRes.cont s1 => runState m n s1
    | StepRes.done _ => none

/-- One orthogonal move of the search graph: `q` is a passable neighbor
of `p` (edge relation induced by `get_neighbors`). -/
def stepAdj (m : MazeGrid) (p q : Pos) : Prop := q ∈ get_neighbors m p

/-- A list of cells is a walk of the grid graph: each consecutive pair is
joined by one orthogonal passable move. -/
def IsWalk (m : MazeGrid) (l : List Pos) : Prop :=
  List.Chain' (fun a b => b ∈ get_neighbors m a) l

/-- List membership as a plain structural boolean (kernel-friendly). -/
def memB (q : Pos) : List Pos → Bool
  | [] => false
  | a :: rest => decide (q = a) || memB q rest

/-- Executable walk checker (shown equivalent to `IsWalk`). -/
def isWalkB (m : MazeGrid) : List Pos → Bool
  | a :: b :: rest => memB b (get_neighbors m a) && isWalkB m (b :: rest)
  | _ => true

/-- Modelled from the spec: the claims measure a returned path against the
"true shortest-path distance ... as computed by a reference breadth-first
search".  A BFS from `start` computes exactly the least number of orthogonal
passable moves of any walk; here that yardstick is formalized directly: a
distance labelling that is 1-Lipschitz along grid edges bounds every walk
from below (`walk_label_bound`), and a concrete walk bounds the distance
from above, which pins the shortest distance exactly. -/
def lipCheckB (m : MazeGrid) (L : Pos → Nat) : Bool :=
  (List.range m.rows).all fun r =>
    (List.range m.cols).all fun c =>
      !(is_valid m ((r : Int), (c : Int))) ||
        (get_neighbors m ((r : Int), (c : Int))).all fun q =>
          decide (L q ≤ L ((r : Int), (c : Int)) + 1)

/-- Breadth-first-search distances from `mCE.start` on `gridCE`, one entry
per reachable cell. -/
def labelTableCE : List (Pos × Nat) :=
  [((0, 0), 23), ((0, 1), 22), ((0, 2), 21), ((0, 3), 20), ((0, 4), 21), ((0, 5), 20), ((0, 6), 21), ((1, 0), 24), ((1, 3), 19), ((1, 4), 20), ((1, 5), 19), ((1, 6), 20), ((2, 1), 18), ((2, 2), 19), ((2, 3), 18), ((2, 4), 19), ((2, 5), 18), ((2, 6), 19), ((3, 0), 16), ((3, 1), 17), ((3, 3), 17), ((3, 5), 17), ((3, 6), 18), ((4, 0), 15), ((4, 2), 17), ((4, 3), 16), ((4, 4), 15), ((4, 5), 16), ((5, 0), 14), ((5, 1), 15), ((5, 2), 16), ((5, 4), 14), ((5, 6), 0), ((6, 0), 13), ((6, 1), 14), ((6, 3), 12), ((6, 4), 13), ((6, 6), 1), ((7, 0), 12), ((7, 2), 10), ((7, 3), 11), ((7, 5), 3), ((7, 6), 2), ((8, 0), 11), ((8, 1), 10), ((8, 2), 9), ((8, 4), 5), ((8, 5), 4), ((8, 6), 3), ((9, 0), 10), ((9, 1), 9), ((9, 2), 8), ((9, 3), 7), ((9, 4), 6), ((9, 5), 5), ((9, 6), 4)]

/-- The labelling function of `labelTableCE` (unlabelled cells, i.e. walls
and out-of-bounds positions, get a harmless large default). -/
def LCE : Pos → Nat := fun p => (dictGet labelTableCE p).getD 100

/-- One orthogonal unit move: the two cells differ by exactly one unit in
exactly one coordinate. -/
def orthStep (p q : Pos) : Prop :=
  (p.1 - q.1).natAbs + (p.2 - q.2).natAbs = 1

/-- Row-major order on `(row, col)` scan coordinates. -/
def rowMajorBefore (p q : Nat × Nat) : Prop :=
  p.1 < q.1 ∨ (p.1 = q.1 ∧ p.2 < q.2)

/-- The 3×3 scenario from the spec: `S . #` / `# . #` / `# . G`. -/
def tgrid3 : List (List Char) := [['S', ' ', '#'], ['#', ' ', '#'], ['#', ' ', 'G']]

/-- A 1×4 corridor `S..G` (start-goal Manhattan distance 3). -/
def tgrid14 : List (List Char) := [['S', ' ', ' ', 'G']]

/-- Start and goal separated by a solid wall row (the spec's unreachable case). -/
def tgridU : List (List Char) := [['S', ' '], ['#', '#'], [' ', 'G']]

/-- A grid whose middle marker `'X'` is outside the documented alphabet. -/
def tgridX : List (List Char) := [['S', 'X', 'G']]

/-- A grid with duplicated start and goal markers. -/
def tgridDup : List (List Char) := [['G', 'S'], ['S', 'G']]

/-- A directly built grid state whose start and goal coincide (not
constructible through `mkMazeGrid`, which needs distinct `'S'`/`'G'` cells). -/
def mSG : MazeGrid :=
  { grid := [['S']], rows := 1, cols := 1, start := (0, 0), goal := (0, 0) }

/-- The 10×7 grid on which the search returns a non-shortest path. -/
def gridCE : List (List Char) :=
  [['G', ' ', ' ', ' ', ' ', ' ', ' '],
   [' ', '#', '#', ' ', ' ', ' ', ' '],
   ['#', ' ', ' ', ' ', ' ', ' ', ' '],
   [' ', ' ', '#', ' ', '#', ' ', ' '],
   [' ', '#', ' ', ' ', ' ', ' ', '#'],
   [' ', ' ', ' ', '#', ' ', '#', 'S'],
   [' ', ' ', '#', ' ', ' ', '#', ' '],
   [' ', '#', ' ', ' ', '#', ' ', ' '],
   [' ', ' ', ' ', '#', ' ', ' ', ' '],
   [' ', ' ', ' ', ' ', ' ', ' ', ' ']]

/-- The grid state `mkMazeGrid` builds from `gridCE`. -/
def mCE : MazeGrid :=
  { grid := gridCE, rows := 10, cols := 7, start := (5, 6), goal := (0, 0) }

/-- The 25-edge path `a_star_search` returns on `gridCE`. -/
def astarPathCE : List Pos :=
  [(5, 6), (6, 6), (7, 6), (7, 5), (8, 5), (8, 4), (9, 4), (9, 3), (9, 2),
   (8, 2), (8, 1), (8, 0), (7, 0), (6, 0), (5, 0), (4, 0), (3, 0), (3, 1),
   (2, 1), (2, 2), (2, 3), (1, 3), (0, 3), (0, 2), (0, 1), (0, 0)]

/-- A 23-edge walk from start to goal on `gridCE`, two edges shorter than
what the search returns. -/
def shortWalkCE : List Pos :=
  [(5, 6), (6, 6), (7, 6), (8, 6), (9, 6), (9, 5), (9, 4), (9, 3), (9, 2),
   (8, 2), (7, 2), (7, 3), (6, 3), (6, 4), (5, 4), (4, 4), (4, 3), (3, 3),
   (2, 3), (1, 3), (0, 3), (0, 2), (0, 1), (0, 0)]

/-- The path the search returns on `tgrid3`. -/
def tpath3 : List Pos := [(0, 0), (0, 1), (1, 1), (2, 1), (2, 2)]

/-- The grid state built from `tgrid3`. -/
def m3 : MazeGrid :=
  { grid := tgrid3, rows := 3, cols := 3, start := (0, 0), goal := (2, 2) }

/-- The grid state built from `tgrid14`. -/
def m14 : MazeGrid :=
  { grid := tgrid14, rows := 1, cols := 4, start := (0, 0), goal := (0, 3) }

/-- The grid state built from `tgridX` (construction accepts the `'X'`). -/
def mX : MazeGrid :=
  { grid := tgridX, rows := 1, cols := 3, start := (0, 0), goal := (0, 2) }

/-- The grid state built from `tgridDup`: the first `'S'`/`'G'` in row-major
order win. -/
def mDup : MazeGrid :=
  { grid := tgridDup, rows := 2, cols := 2, start := (0, 1), goal := (0, 0) }

/-- The grid state built from `tgridU` (the separating wall row). -/
def mU : MazeGrid :=
  { grid := tgridU, rows := 3, cols := 2, start := (0, 0), goal := (2, 1) }

/-- The chain of `came_from` links from a cell (fuelled): the cells the
backtracking loop of `reconstruct_path` appends after its seed. -/
def backChain (cf : List (Pos × Pos)) : Nat → Pos → List Pos
  | 0, _ => []
  | fuel + 1, v =>
    match dictGet cf v with
    | none => []
    | some u => u :: backChain cf fuel u

/-- Sum of the stored `g_score` values. -/
def sumG (l : List (Pos × Nat)) : Nat := (l.map Prod.snd).sum

/-- Termination potential of the cost table: unseen cells contribute the
cap `rows*cols + 2`, seen cells their current (smaller) `g_score`; every
relaxation strictly decreases it. -/
def phiG (m : MazeGrid) (s : AState) : Nat :=
  (m.rows * m.cols + 2 - s.g_score.length) * (m.rows * m.cols + 2) +
    sumG s.g_score

/-- Termination measure of the search loop: strictly decreases at every
iteration. -/
def measureM (m : MazeGrid) (s : AState) : Nat :=
  2 * phiG m s + s.open_set.length

/-- The invariants the search loop maintains.  `g_score` keys are the seen
cells; `came_from` records a strictly-`g`-decreasing passable-edge link for
every seen cell except `start`; heap entries name seen cells; stored costs
stay below the number of seen cells, whose positions are pairwise distinct
and in bounds. -/
structure Inv (m : MazeGrid) (s : AState) : Prop where
  g_start : dictGet s.g_score m.start = some 0
  cf_start : dictGet s.came_from m.start = none
  cf_edge : ∀ v u, dictGet s.came_from v = some u → v ∈ get_neighbors m u
  cf_gdec : ∀ v u, dictGet s.came_from v = some u →
    ∃ a b, dictGet s.g_score v = some a ∧ dictGet s.g_score u = some b ∧ b < a
  seen_cf : ∀ v, dictGet s.g_score v ≠ none →
    v = m.start ∨ dictGet s.came_from v ≠ none
  keys_cells : ∀ e ∈ s.g_score, e.1 = m.start ∨ is_valid m e.1 = true
  keys_nodup : (s.g_score.map Prod.fst).Nodup
  heap_seen : ∀ e ∈ s.open_set, (dictGet s.g_score e.2.2).isSome = true
  g_bound : ∀ v x, dictGet s.g_score v = some x → x < s.g_score.length

/-- What the search guarantees about a returned path: it runs from `start`
to `goal` along passable orthogonal moves, and every cell on it is `start`
or passable. -/
def PathSpec (m : MazeGrid) (path : List Pos) : Prop :=
  path.head? = some m.start ∧ path.getLast? = some m.goal ∧
  List.Chain' (fun a b => b ∈ get_neighbors m a) path ∧
  (∀ p ∈ path, p = m.start ∨ is_valid m p = true) ∧
  Relation.ReflTransGen (stepAdj m) m.start m.goal

/-! ### Basic lemmas about the embedded operations -/

theorem dictGet_dictSet_self {β : Type} (l : List (Pos × β)) (k : Pos) (v : β) :
    dictGet (dictSet l k v) k = some v := by
  induction l with
  | nil => simp [dictSet, dictGet]
  | cons e rest ih =>
    obtain ⟨k1, v1⟩ := e
    by_cases h : k1 = k
    · subst h; simp [dictSet, dictGet]
    · simp [dictSet, dictGet, h, ih]

theorem dictGet_dictSet_ne {β : Type} (l : List (Pos × β)) (k p : Pos) (v : β)
    (h : p ≠ k) : dictGet (dictSet l k v) p = dictGet l p := by
  induction l with
  | nil => simp [dictSet, dictGet, Ne.symm h]
  | cons e rest ih =>
    obtain ⟨k1, v1⟩ := e
    by_cases hk : k1 = k
    · subst hk; simp [dictSet, dictGet, Ne.symm h]
    · simp only [dictSet, if_neg hk, dictGet]
      by_cases hp : k1 = p
      · simp [hp]
      · simp [hp, ih]

theorem is_valid_iff (m : MazeGrid) (q : Pos) :
    is_valid m q = true ↔
      ((0 ≤ q.1 ∧ q.1 < (m.rows : Int) ∧ 0 ≤ q.2 ∧ q.2 < (m.cols : Int)) ∧
        cellAt m.grid q.1.toNat q.2.toNat ≠ '#') := by
  unfold is_valid
  split
  · simp_all
  · simp_all

theorem is_valid_oob (m : MazeGrid) (q : Pos)
    (h : ¬ (0 ≤ q.1 ∧ q.1 < (m.rows : Int) ∧ 0 ≤ q.2 ∧ q.2 < (m.cols : Int))) :
    is_valid m q = false := by
  unfold is_valid
  split
  · exact absurd (by assumption) h
  · rfl

theorem foldl_push_eq {α β : Type} (f : α → β) (P : β → Bool) :
    ∀ (l : List α) (acc : List β),
      l.foldl (fun ns d => if P (f d) then ns ++ [f d] else ns) acc
        = acc ++ (l.map f).filter P := by
  intro l
  induction l with
  | nil => intro acc; simp
  | cons d rest ih =>
    intro acc
    by_cases h : P (f d) = true
    · simp [List.foldl_cons, h, ih, List.filter_cons]
    · simp [List.foldl_cons, h, ih, List.filter_cons]

theorem get_neighbors_eq (m : MazeGrid) (pos : Pos) :
    get_neighbors m pos =
      [((pos.1 - 1, pos.2) : Pos), (pos.1 + 1, pos.2),
        (pos.1, pos.2 - 1), (pos.1, pos.2 + 1)].filter (is_valid m) := by
  have h := foldl_push_eq (fun d : Int × Int => ((pos.1 + d.1, pos.2 + d.2) : Pos))
    (is_valid m) directions []
  have e1 : pos.1 + (-1 : Int) = pos.1 - 1 := by omega
  have e2 : pos.2 + (-1 : Int) = pos.2 - 1 := by omega
  unfold get_neighbors
  rw [show (fun (neighbors : List Pos) (d : Int × Int) =>
        if is_valid m (pos.1 + d.1, pos.2 + d.2) then
          neighbors ++ [((pos.1 + d.1, pos.2 + d.2) : Pos)]
        else neighbors) =
      (fun ns d => if is_valid m ((fun d : Int × Int =>
        ((pos.1 + d.1, pos.2 + d.2) : Pos)) d) then
          ns ++ [(fun d : Int × Int => ((pos.1 + d.1, pos.2 + d.2) : Pos)) d]
        else ns) from rfl]
  rw [h]
  simp [directions, e1, e2]

theorem orthStep_ne {p q : Pos} (h : orthStep p q) : p ≠ q := by
  unfold orthStep at h
  intro he
  subst he
  omega

theorem mem_get_neighbors (m : MazeGrid) (pos q : Pos) :
    q ∈ get_neighbors m pos ↔ (orthStep pos q ∧ is_valid m q = true) := by
  rw [get_neighbors_eq]
  simp only [List.mem_filter, List.mem_cons, List.not_mem_nil, or_false]
  obtain ⟨p1, p2⟩ := pos
  obtain ⟨q1, q2⟩ := q
  constructor
  · rintro ⟨hq | hq | hq | hq, hv⟩ <;>
      (rw [Prod.mk.injEq] at hq; refine ⟨?_, by simpa [hq.1, hq.2] using hv⟩) <;>
      (unfold orthStep; simp only; omega)
  · rintro ⟨ha, hv⟩
    unfold orthStep at ha
    simp only at ha
    refine ⟨?_, hv⟩
    have hcases : (q1 = p1 - 1 ∧ q2 = p2) ∨ (q1 = p1 + 1 ∧ q2 = p2) ∨
        (q1 = p1 ∧ q2 = p2 - 1) ∨ (q1 = p1 ∧ q2 = p2 + 1) := by omega
    rcases hcases with ⟨h1, h2⟩ | ⟨h1, h2⟩ | ⟨h1, h2⟩ | ⟨h1, h2⟩ <;>
      subst h1 <;> subst h2 <;> simp

/-! ### Characterization of the construction scan -/

theorem findSome?_range_none {β : Type} (f : Nat → Option β) (n : Nat) :
    (List.range n).findSome? f = none ↔ ∀ i, i < n → f i = none := by
  rw [List.findSome?_eq_none_iff]
  constructor
  · intro h i hi
    exact h i (List.mem_range.2 hi)
  · intro h x hx
    exact h x (List.mem_range.1 hx)

theorem findSome?_range_some {β : Type} {f : Nat → Option β} {n : Nat} {b : β}
    (h : (List.range n).findSome? f = some b) :
    ∃ i, i < n ∧ f i = some b ∧ ∀ j, j < i → f j = none := by
  induction n with
  | zero => simp [List.range_zero, List.findSome?] at h
  | succ n ih =>
    rw [List.range_succ, List.findSome?_append] at h
    cases hc : (List.range n).findSome? f with
    | some b0 =>
      rw [hc] at h
      simp only [Option.or] at h
      obtain rfl : b0 = b := by simpa using h
      obtain ⟨i, hi, hfi, hmin⟩ := ih hc
      exact ⟨i, Nat.lt_succ_of_lt hi, hfi, hmin⟩
    | none =>
      rw [hc] at h
      simp only [Option.or] at h
      cases hx : f n with
      | none => simp [List.findSome?_cons, List.findSome?, hx] at h
      | some y =>
        obtain rfl : y = b := by
          simpa [List.findSome?_cons, List.findSome?, hx] using h
        refine ⟨n, Nat.lt_succ_self n, hx, ?_⟩
        intro j hj
        exact (findSome?_range_none f n).1 hc j hj

theorem find_position_eq_none {grid : List (List Char)} {rows cols : Nat}
    {symbol : Char} :
    find_position grid rows cols symbol = none ↔
      ∀ r c, r < rows → c < cols → cellAt grid r c ≠ symbol := by
  unfold find_position
  rw [findSome?_range_none]
  constructor
  · intro h r c hr hc hcell
    have h2 := (findSome?_range_none _ cols).1 (h r hr) c hc
    simp [hcell] at h2
  · intro h r hr
    rw [findSome?_range_none]
    intro c hc
    simp [h r c hr hc]

theorem find_position_eq_some {grid : List (List Char)} {rows cols : Nat}
    {symbol : Char} {p : Pos}
    (h : find_position grid rows cols symbol = some p) :
    ∃ (r c : Nat), p = ((r : Int), (c : Int)) ∧ r < rows ∧ c < cols ∧
      cellAt grid r c = symbol ∧
      ∀ r2 c2, r2 < rows → c2 < cols →
        rowMajorBefore (r2, c2) (r, c) → cellAt grid r2 c2 ≠ symbol := by
  unfold find_position at h
  obtain ⟨r, hr, hinner, hrmin⟩ := findSome?_range_some h
  obtain ⟨c, hc, hif, hcmin⟩ := findSome?_range_some hinner
  have hcell : cellAt grid r c = symbol := by
    by_cases hx : cellAt grid r c = symbol
    · exact hx
    · simp [hx] at hif
  have hp : p = ((r : Int), (c : Int)) := by
    rw [if_pos hcell] at hif
    exact (Option.some.inj hif).symm
  refine ⟨r, c, hp, hr, hc, hcell, ?_⟩
  intro r2 c2 h2r h2c hbefore hcell2
  rcases hbefore with hlt | ⟨heq, hclt⟩
  · have hrow := hrmin r2 hlt
    have h3 := (findSome?_range_none _ cols).1 hrow c2 h2c
    simp [hcell2] at h3
  · have heq2 : r2 = r := heq
    subst heq2
    have h3 := hcmin c2 hclt
    simp [hcell2] at h3

theorem mkMazeGrid_eq_match (grid : List (List Char)) :
    mkMazeGrid grid =
      (match find_position grid grid.length (gridCols grid) 'S',
          find_position grid grid.length (gridCols grid) 'G' with
        | some s, some g =>
            some ({ grid := grid, rows := grid.length, cols := gridCols grid,
                    start := s, goal := g } : MazeGrid)
        | _, _ => none) := rfl

theorem mkMazeGrid_eq_some {grid : List (List Char)} {m : MazeGrid}
    (h : mkMazeGrid grid = some m) :
    m.grid = grid ∧ m.rows = grid.length ∧ m.cols = gridCols grid ∧
    find_position grid grid.length (gridCols grid) 'S' = some m.start ∧
    find_position grid grid.length (gridCols grid) 'G' = some m.goal := by
  rw [mkMazeGrid_eq_match grid] at h
  cases hS : find_position grid grid.length (gridCols grid) 'S' with
  | none => rw [hS] at h; simp at h
  | some s =>
    cases hG : find_position grid grid.length (gridCols grid) 'G' with
    | none => rw [hS, hG] at h; simp at h
    | some g =>
      rw [hS, hG] at h
      simp only [Option.some.injEq] at h
      subst h
      exact ⟨rfl, rfl, rfl, rfl, rfl⟩

theorem mkMazeGrid_eq_none_iff {grid : List (List Char)} :
    mkMazeGrid grid = none ↔
      find_position grid grid.length (gridCols grid) 'S' = none ∨
      find_position grid grid.length (gridCols grid) 'G' = none := by
  rw [mkMazeGrid_eq_match grid]
  cases hS : find_position grid grid.length (gridCols grid) 'S' with
  | none => simp
  | some s =>
    cases hG : find_position grid grid.length (gridCols grid) 'G' with
    | none => simp
    | some g => simp

/-! ### Claim C7: neighbors and passability -/

/-- C7: `get_neighbors` returns exactly the passable orthogonal neighbors of
a cell, in the fixed canonical order up, down, left, right (the four shifted
cells filtered by passability in that order); `is_valid` holds iff the cell
lies in bounds and its marker is not `'#'`; an out-of-bounds cell is never
passable, independently of any marker lookup. -/
theorem neighbors_and_validity_spec (m : MazeGrid) (pos q : Pos) :
    (get_neighbors m pos =
      [((pos.1 - 1, pos.2) : Pos), (pos.1 + 1, pos.2),
        (pos.1, pos.2 - 1), (pos.1, pos.2 + 1)].filter (is_valid m)) ∧
    (q ∈ get_neighbors m pos ↔ (orthStep pos q ∧ is_valid m q = true)) ∧
    (is_valid m q = true ↔
      ((0 ≤ q.1 ∧ q.1 < (m.rows : Int) ∧ 0 ≤ q.2 ∧ q.2 < (m.cols : Int)) ∧
        cellAt m.grid q.1.toNat q.2.toNat ≠ '#')) ∧
    (¬ (0 ≤ q.1 ∧ q.1 < (m.rows : Int) ∧ 0 ≤ q.2 ∧ q.2 < (m.cols : Int)) →
      is_valid m q = false) :=
  ⟨get_neighbors_eq m pos, mem_get_neighbors m pos q, is_valid_iff m q,
    is_valid_oob m q⟩

/-- Witness for C7 at a concrete grid and cells. -/
theorem neighbors_and_validity_spec_witness :
    get_neighbors m3 ((1 : Int), (1 : Int)) =
      [(((1 : Int) - 1, (1 : Int)) : Pos), (1 + 1, 1), (1, 1 - 1), (1, 1 + 1)].filter
        (is_valid m3) ∧
    is_valid m3 ((5 : Int), (5 : Int)) = false :=
  ⟨(neighbors_and_validity_spec m3 (1, 1) (5, 5)).1,
    (neighbors_and_validity_spec m3 (1, 1) (5, 5)).2.2.2 (by decide)⟩

/-! ### Claim C9: no alphabet check in passability -/

/-- C9: `is_valid` accepts every in-bounds cell whose marker is any character
other than `'#'` — including `'S'`, `'G'` and characters outside the
documented alphabet, since construction performs no alphabet check (the grid
built from `['S','X','G']` treats the unknown `'X'` as open space). -/
theorem is_valid_any_nonwall_marker :
    (∀ (m : MazeGrid) (q : Pos),
        (0 ≤ q.1 ∧ q.1 < (m.rows : Int) ∧ 0 ≤ q.2 ∧ q.2 < (m.cols : Int)) →
        cellAt m.grid q.1.toNat q.2.toNat ≠ '#' →
        is_valid m q = true) ∧
    mkMazeGrid tgridX = some mX ∧
    ¬ ('X' = 'S' ∨ 'X' = 'G' ∨ 'X' = '#' ∨ 'X' = ' ') ∧
    is_valid mX (0, 0) = true ∧ is_valid mX (0, 1) = true ∧
    is_valid mX (0, 2) = true := by
  refine ⟨?_, rfl, by decide, by decide, by decide, by decide⟩
  intro m q hb hm
  rw [is_valid_iff]
  exact ⟨hb, hm⟩

/-- Witness for C9: the general clause applied at the `'X'` cell. -/
theorem is_valid_any_nonwall_marker_witness :
    is_valid mX ((0 : Int), (1 : Int)) = true :=
  is_valid_any_nonwall_marker.1 mX (0, 1) (by decide) (by decide)

/-! ### Claim C4: the initialization block -/

/-- C4, amended: at initialization the single frontier entry for `start` is
`(0, seq 0, start)` — its priority is the literal `0`, not
`f[start] = heuristic(start, goal)` as the spec claims; `g[start] = 0`,
`f[start] = heuristic(start, goal)` and `start` is marked in-frontier do
hold. -/
theorem init_state_spec (m : MazeGrid) :
    (initState m).open_set = [(0, 0, m.start)] ∧
    (initState m).counter = 0 ∧
    dictGet (initState m).g_score m.start = some 0 ∧
    dictGet (initState m).f_score m.start =
      some (manhattan_distance m.start m.goal) ∧
    m.start ∈ (initState m).open_set_hash ∧
    (initState m).came_from = [] := by
  refine ⟨rfl, rfl, ?_, ?_, ?_, rfl⟩ <;> simp [initState, dictGet]

/-- C4 counterexample: on the 1×4 corridor `S..G`, `f[start] = 3`, but the
entry pushed at initialization carries priority `0`, not `f[start]`. -/
theorem init_push_priority_ne_f :
    mkMazeGrid tgrid14 = some m14 ∧
    manhattan_distance m14.start m14.goal = 3 ∧
    (initState m14).open_set = [(0, 0, ((0 : Int), (0 : Int)))] ∧
    (initState m14).open_set ≠
      [(manhattan_distance m14.start m14.goal, 0, m14.start)] := by
  exact ⟨rfl, rfl, rfl, by decide⟩

/-! ### Claim C6: start equals goal -/

/-- C6: on any grid state whose start cell equals its goal cell the search
returns the single-cell path `[start]` of length 0 steps (constructed
`MazeGrid`s always have distinct start and goal cells, so this concerns
`a_star_search` under the hypothesis `start = goal`). -/
theorem search_single_cell_when_start_eq_goal (m : MazeGrid)
    (h : m.start = m.goal) : a_star_search m = some [m.start] := by
  obtain ⟨grid, rows, cols, start, goal⟩ := m
  dsimp only at h
  subst h
  simp [a_star_search, searchFuel, a_star_run, a_star_step, initState, popMin,
    reconstruct_path, reconstructAux, dictGet]

/-- Witness for C6 at a concrete one-cell grid state. -/
theorem search_single_cell_when_start_eq_goal_witness :
    a_star_search mSG = some [((0 : Int), (0 : Int))] :=
  search_single_cell_when_start_eq_goal mSG rfl

/-! ### Claim C5: construction errors -/

/-- C5 counterexample: the matrix `['S','X','G']` contains the marker `'X'`
outside the documented alphabet — malformed in the claim's sense — yet
construction succeeds: no alphabet validation takes place. -/
theorem construction_accepts_unknown_marker :
    rectangular tgridX = true ∧
    mkMazeGrid tgridX = some mX ∧
    cellAt tgridX 0 1 = 'X' ∧
    ¬ ('X' = 'S' ∨ 'X' = 'G' ∨ 'X' = '#' ∨ 'X' = ' ') :=
  ⟨rfl, rfl, rfl, by decide⟩

/-- C5, amended: for rectangular input, construction fails exactly when the
scanned `rows × cols` rectangle holds no `'S'` or no `'G'`; a matrix with
zero rows or zero columns scans nothing and therefore always fails; no
alphabet validation is performed (see the counterexample). -/
theorem construction_error_characterization (grid : List (List Char))
    (_hrect : rectangular grid = true) :
    ((mkMazeGrid grid = none) ↔
      ((∀ r c, r < grid.length → c < gridCols grid → cellAt grid r c ≠ 'S') ∨
        (∀ r c, r < grid.length → c < gridCols grid → cellAt grid r c ≠ 'G'))) ∧
    ((grid.length = 0 ∨ gridCols grid = 0) → mkMazeGrid grid = none) := by
  constructor
  · rw [mkMazeGrid_eq_none_iff, find_position_eq_none, find_position_eq_none]
  · intro h0
    rw [mkMazeGrid_eq_none_iff, find_position_eq_none]
    left
    intro r c hr hc
    rcases h0 with h | h <;> omega

/-- Witness for C5: the empty matrix is rectangular and fails construction. -/
theorem construction_error_characterization_witness :
    mkMazeGrid ([] : List (List Char)) = none :=
  (construction_error_characterization [] (by decide)).2 (Or.inl rfl)

/-! ### Claim C8: first occurrence wins -/

/-- C8: when the matrix holds several `'S'` or `'G'` markers, the constructed
grid's start (resp. goal) is the first occurrence in row-major scan order
(rows top to bottom, columns left to right); later occurrences are ignored. -/
theorem start_goal_row_major_first (grid : List (List Char)) (m : MazeGrid)
    (_hrect : rectangular grid = true) (h : mkMazeGrid grid = some m) :
    (∃ (r c : Nat), m.start = ((r : Int), (c : Int)) ∧ r < grid.length ∧
      c < gridCols grid ∧ cellAt grid r c = 'S' ∧
      ∀ r2 c2, r2 < grid.length → c2 < gridCols grid →
        rowMajorBefore (r2, c2) (r, c) → cellAt grid r2 c2 ≠ 'S') ∧
    (∃ (r c : Nat), m.goal = ((r : Int), (c : Int)) ∧ r < grid.length ∧
      c < gridCols grid ∧ cellAt grid r c = 'G' ∧
      ∀ r2 c2, r2 < grid.length → c2 < gridCols grid →
        rowMajorBefore (r2, c2) (r, c) → cellAt grid r2 c2 ≠ 'G') := by
  obtain ⟨-, -, -, hS, hG⟩ := mkMazeGrid_eq_some h
  obtain ⟨r, c, hp, hr, hc, hcell, hmin⟩ := find_position_eq_some hS
  obtain ⟨r2, c2, hp2, hr2, hc2, hcell2, hmin2⟩ := find_position_eq_some hG
  exact ⟨⟨r, c, hp, hr, hc, hcell, hmin⟩,
    ⟨r2, c2, hp2, hr2, hc2, hcell2, hmin2⟩⟩

/-- Witness for C8 on a grid with duplicated `'S'` and `'G'` markers. -/
theorem start_goal_row_major_first_witness :
    (∃ (r c : Nat), mDup.start = ((r : Int), (c : Int)) ∧ r < tgridDup.length ∧
      c < gridCols tgridDup ∧ cellAt tgridDup r c = 'S' ∧
      ∀ r2 c2, r2 < tgridDup.length → c2 < gridCols tgridDup →
        rowMajorBefore (r2, c2) (r, c) → cellAt tgridDup r2 c2 ≠ 'S') ∧
    (∃ (r c : Nat), mDup.goal = ((r : Int), (c : Int)) ∧ r < tgridDup.length ∧
      c < gridCols tgridDup ∧ cellAt tgridDup r c = 'G' ∧
      ∀ r2 c2, r2 < tgridDup.length → c2 < gridCols tgridDup →
        rowMajorBefore (r2, c2) (r, c) → cellAt tgridDup r2 c2 ≠ 'G') :=
  start_goal_row_major_first tgridDup mDup (by decide) rfl

/-! ### Claim C1: the returned path is not always shortest (code bug) -/

theorem memB_iff (q : Pos) (l : List Pos) : memB q l = true ↔ q ∈ l := by
  induction l with
  | nil => simp [memB]
  | cons a rest ih => simp [memB, ih]

theorem isWalkB_iff (m : MazeGrid) (l : List Pos) :
    isWalkB m l = true ↔ IsWalk m l := by
  induction l with
  | nil => simp [isWalkB, IsWalk]
  | cons a rest ih =>
    cases rest with
    | nil => simp [isWalkB, IsWalk]
    | cons b rest2 =>
      rw [IsWalk, List.chain'_cons]
      unfold isWalkB
      rw [Bool.and_eq_true, memB_iff]
      exact and_congr Iff.rfl ih

theorem lipCheckB_sound (m : MazeGrid) (L : Pos → Nat)
    (h : lipCheckB m L = true) :
    ∀ p, is_valid m p = true → ∀ q, q ∈ get_neighbors m p → L q ≤ L p + 1 := by
  intro p hp q hq
  have hb := ((is_valid_iff m p).1 hp).1
  rw [lipCheckB, List.all_eq_true] at h
  have h1 := h p.1.toNat (List.mem_range.2 (by omega))
  rw [List.all_eq_true] at h1
  have h2 := h1 p.2.toNat (List.mem_range.2 (by omega))
  have hpp : (((p.1.toNat : Nat) : Int), ((p.2.toNat : Nat) : Int)) = p := by
    obtain ⟨p1, p2⟩ := p
    simp only [Prod.mk.injEq]
    constructor <;> simp only at hb ⊢ <;> omega
  rw [hpp] at h2
  rw [Bool.or_eq_true] at h2
  cases h2 with
  | inl h3 => rw [hp] at h3; simp at h3
  | inr h3 =>
    rw [List.all_eq_true] at h3
    simpa using h3 q hq

theorem walk_label_bound (m : MazeGrid) (L : Pos → Nat)
    (hLip : ∀ p, is_valid m p = true → ∀ q, q ∈ get_neighbors m p → L q ≤ L p + 1) :
    ∀ (l : List Pos) (a b : Pos), IsWalk m l → l.head? = some a →
      l.getLast? = some b → is_valid m a = true →
      L b ≤ L a + (l.length - 1) := by
  intro l
  induction l with
  | nil => intro a b _ hh _ _; simp at hh
  | cons x rest ih =>
    intro a b hwalk hhead hlast hvalid
    obtain rfl : a = x := by simpa using hhead.symm
    cases rest with
    | nil =>
      obtain rfl : a = b := by simpa using hlast
      simp
    | cons y rest2 =>
      rw [IsWalk, List.chain'_cons] at hwalk
      have hedge : y ∈ get_neighbors m a := hwalk.1
      have hyv : is_valid m y = true := ((mem_get_neighbors m a y).1 hedge).2
      have hstep := hLip a hvalid y hedge
      have hlast2 : (y :: rest2).getLast? = some b := by
        rw [List.getLast?_cons_cons] at hlast
        exact hlast
      have hrec := ih y b hwalk.2 rfl hlast2 hyv
      simp only [List.length_cons] at hrec ⊢
      omega


set_option maxHeartbeats 2000000 in
/-- C1 (code bug): on the 10×7 grid `gridCE` the search returns the 25-edge
path `astarPathCE`, while `shortWalkCE` is a valid 23-edge walk from start to
goal (and the reference BFS computes shortest distance 23): the returned path
is not shortest, contradicting both the spec and the source's own docstrings.
The cause: when a frontier node's `g_score` improves, the
`if neighbor not in open_set_hash` guard skips re-pushing it, so its heap
entry keeps a stale (too high) priority, and the goal can be popped before
the improved route is propagated. -/
theorem search_returns_non_shortest_path_on_gridCE :
    mkMazeGrid gridCE = some mCE ∧
    a_star_search mCE = some astarPathCE ∧
    astarPathCE.length = 26 ∧
    IsWalk mCE shortWalkCE ∧
    shortWalkCE.head? = some mCE.start ∧
    shortWalkCE.getLast? = some mCE.goal ∧
    shortWalkCE.length = 24 ∧
    (∀ l : List Pos, IsWalk mCE l → l.head? = some mCE.start →
      l.getLast? = some mCE.goal → 24 ≤ l.length) := by
  refine ⟨rfl, rfl, rfl, (isWalkB_iff mCE shortWalkCE).1 (by rfl), rfl, rfl, rfl, ?_⟩
  intro l hw hh hl
  have hlip := lipCheckB_sound mCE LCE (by rfl)
  have h1 := walk_label_bound mCE LCE hlip l mCE.start mCE.goal hw hh hl (by rfl)
  have e1 : LCE mCE.goal = 23 := by rfl
  have e2 : LCE mCE.start = 0 := by rfl
  have hlen : 1 ≤ l.length := by
    cases l with
    | nil => simp at hh
    | cons x rest => simp
  omega

/-! ### Association-list and heap auxiliary lemmas -/

theorem mem_of_dictGet_some {β : Type} {l : List (Pos × β)} {k : Pos} {v : β}
    (h : dictGet l k = some v) : (k, v) ∈ l := by
  induction l with
  | nil => simp [dictGet] at h
  | cons e rest ih =>
    obtain ⟨k1, v1⟩ := e
    rw [dictGet] at h
    by_cases hk : k1 = k
    · rw [if_pos hk] at h
      obtain rfl : v1 = v := Option.some.inj h
      subst hk
      exact List.mem_cons_self _ _
    · rw [if_neg hk] at h
      exact List.mem_cons_of_mem _ (ih h)

theorem dictGet_eq_none_iff {β : Type} {l : List (Pos × β)} {k : Pos} :
    dictGet l k = none ↔ ¬ k ∈ l.map Prod.fst := by
  induction l with
  | nil => simp [dictGet]
  | cons e rest ih =>
    obtain ⟨k1, v1⟩ := e
    rw [dictGet]
    by_cases hk : k1 = k
    · subst hk; simp
    · rw [if_neg hk, ih]
      simp only [List.map_cons, List.mem_cons]
      constructor
      · intro hn hmem
        rcases hmem with h1 | h1
        · exact hk h1.symm
        · exact hn h1
      · intro hn h1
        exact hn (Or.inr h1)

theorem dictGet_isSome_dictSet {β : Type} (l : List (Pos × β)) (k p : Pos)
    (v : β) (h : (dictGet l p).isSome = true) :
    (dictGet (dictSet l k v) p).isSome = true := by
  by_cases hp : p = k
  · subst hp; rw [dictGet_dictSet_self]; rfl
  · rw [dictGet_dictSet_ne l k p v hp]; exact h

theorem keys_dictSet_present {β : Type} {l : List (Pos × β)} {k : Pos} (v : β)
    (h : k ∈ l.map Prod.fst) :
    (dictSet l k v).map Prod.fst = l.map Prod.fst := by
  induction l with
  | nil => simp at h
  | cons e rest ih =>
    obtain ⟨k1, v1⟩ := e
    rw [dictSet]
    by_cases hk : k1 = k
    · subst hk; simp
    · rw [if_neg hk]
      simp only [List.map_cons] at h ⊢
      rcases List.mem_cons.1 h with h1 | h1
      · exact absurd h1.symm hk
      · rw [ih h1]

theorem keys_dictSet_absent {β : Type} {l : List (Pos × β)} {k : Pos} (v : β)
    (h : ¬ k ∈ l.map Prod.fst) :
    (dictSet l k v).map Prod.fst = l.map Prod.fst ++ [k] := by
  induction l with
  | nil => simp [dictSet]
  | cons e rest ih =>
    obtain ⟨k1, v1⟩ := e
    have hk : ¬ k1 = k := by
      intro he
      exact h (by simp [he])
    rw [dictSet, if_neg hk]
    simp only [List.map_cons]
    rw [ih (by intro hh; exact h (by simp [hh]))]
    simp

theorem mem_dictSet {β : Type} {l : List (Pos × β)} {k : Pos} {v : β}
    {e : Pos × β} (h : e ∈ dictSet l k v) : e = (k, v) ∨ e ∈ l := by
  induction l with
  | nil =>
    simp [dictSet] at h
    exact Or.inl h
  | cons e1 rest ih =>
    obtain ⟨k1, v1⟩ := e1
    rw [dictSet] at h
    by_cases hk : k1 = k
    · rw [if_pos hk] at h
      rcases List.mem_cons.1 h with h1 | h1
      · exact Or.inl h1
      · exact Or.inr (List.mem_cons_of_mem _ h1)
    · rw [if_neg hk] at h
      rcases List.mem_cons.1 h with h1 | h1
      · exact Or.inr (h1 ▸ List.mem_cons_self _ _)
      · rcases ih h1 with h2 | h2
        · exact Or.inl h2
        · exact Or.inr (List.mem_cons_of_mem _ h2)

theorem sumG_dictSet_present {l : List (Pos × Nat)} {k : Pos} {w : Nat}
    (v : Nat) (h : dictGet l k = some w) :
    sumG (dictSet l k v) + w = sumG l + v := by
  induction l with
  | nil => simp [dictGet] at h
  | cons e rest ih =>
    obtain ⟨k1, v1⟩ := e
    rw [dictGet] at h
    rw [dictSet]
    by_cases hk : k1 = k
    · rw [if_pos hk] at h
      obtain rfl : v1 = w := Option.some.inj h
      rw [if_pos hk]
      simp only [sumG, List.map_cons, List.sum_cons]
      omega
    · rw [if_neg hk] at h
      rw [if_neg hk]
      have h2 := ih h
      simp only [sumG, List.map_cons, List.sum_cons] at h2 ⊢
      omega

theorem sumG_dictSet_absent {l : List (Pos × Nat)} {k : Pos} (v : Nat)
    (h : dictGet l k = none) : sumG (dictSet l k v) = sumG l + v := by
  induction l with
  | nil => simp [dictSet, sumG]
  | cons e rest ih =>
    obtain ⟨k1, v1⟩ := e
    rw [dictGet] at h
    by_cases hk : k1 = k
    · rw [if_pos hk] at h; simp at h
    · rw [if_neg hk] at h
      rw [dictSet, if_neg hk]
      have h2 := ih h
      simp only [sumG, List.map_cons, List.sum_cons] at h2 ⊢
      omega

theorem popMin_eq_none_iff {l : List (Nat × Nat × Pos)} :
    popMin l = none ↔ l = [] := by
  cases l with
  | nil => simp [popMin]
  | cons e es =>
    rw [popMin]
    cases h : popMin es with
    | none => simp
    | some pr =>
      obtain ⟨b, rest⟩ := pr
      by_cases he : entryLE e b = true <;> simp [he]

theorem popMin_mem :
    ∀ {l : List (Nat × Nat × Pos)} {e rest}, popMin l = some (e, rest) →
      e ∈ l := by
  intro l
  induction l with
  | nil => intro e rest h; simp [popMin] at h
  | cons a es ih =>
    intro e rest h
    rw [popMin] at h
    cases hp : popMin es with
    | none =>
      rw [hp] at h
      simp only [Option.some.injEq, Prod.mk.injEq] at h
      obtain ⟨rfl, rfl⟩ := h
      exact List.mem_cons_self _ _
    | some pr =>
      obtain ⟨b, brest⟩ := pr
      rw [hp] at h
      dsimp only at h
      by_cases he : entryLE a b = true
      · rw [if_pos he] at h
        simp only [Option.some.injEq, Prod.mk.injEq] at h
        obtain ⟨rfl, rfl⟩ := h
        exact List.mem_cons_self _ _
      · rw [if_neg he] at h
        simp only [Option.some.injEq, Prod.mk.injEq] at h
        obtain ⟨rfl, rfl⟩ := h
        exact List.mem_cons_of_mem _ (ih hp)

theorem popMin_length :
    ∀ {l : List (Nat × Nat × Pos)} {e rest}, popMin l = some (e, rest) →
      l.length = rest.length + 1 := by
  intro l
  induction l with
  | nil => intro e rest h; simp [popMin] at h
  | cons a es ih =>
    intro e rest h
    rw [popMin] at h
    cases hp : popMin es with
    | none =>
      rw [hp] at h
      simp only [Option.some.injEq, Prod.mk.injEq] at h
      obtain ⟨rfl, rfl⟩ := h
      have : es = [] := popMin_eq_none_iff.1 hp
      subst this
      rfl
    | some pr =>
      obtain ⟨b, brest⟩ := pr
      rw [hp] at h
      dsimp only at h
      by_cases he : entryLE a b = true
      · rw [if_pos he] at h
        simp only [Option.some.injEq, Prod.mk.injEq] at h
        obtain ⟨rfl, rfl⟩ := h
        rfl
      · rw [if_neg he] at h
        simp only [Option.some.injEq, Prod.mk.injEq] at h
        obtain ⟨rfl, rfl⟩ := h
        have h2 := ih hp
        simp only [List.length_cons] at h2 ⊢
        omega

theorem popMin_rest_mem :
    ∀ {l : List (Nat × Nat × Pos)} {e rest}, popMin l = some (e, rest) →
      ∀ x ∈ rest, x ∈ l := by
  intro l
  induction l with
  | nil => intro e rest h; simp [popMin] at h
  | cons a es ih =>
    intro e rest h
    rw [popMin] at h
    cases hp : popMin es with
    | none =>
      rw [hp] at h
      simp only [Option.some.injEq, Prod.mk.injEq] at h
      obtain ⟨rfl, rfl⟩ := h
      intro x hx
      simp at hx
    | some pr =>
      obtain ⟨b, brest⟩ := pr
      rw [hp] at h
      dsimp only at h
      by_cases he : entryLE a b = true
      · rw [if_pos he] at h
        simp only [Option.some.injEq, Prod.mk.injEq] at h
        obtain ⟨rfl, rfl⟩ := h
        intro x hx
        exact List.mem_cons_of_mem _ hx
      · rw [if_neg he] at h
        simp only [Option.some.injEq, Prod.mk.injEq] at h
        obtain ⟨rfl, rfl⟩ := h
        intro x hx
        rcases List.mem_cons.1 hx with h1 | h1
        · exact h1 ▸ List.mem_cons_self _ _
        · exact List.mem_cons_of_mem _ (ih hp x h1)

theorem reconstructAux_eq_backChain (cf : List (Pos × Pos)) :
    ∀ (fuel : Nat) (v : Pos) (acc : List Pos),
      reconstructAux cf fuel v acc = acc ++ backChain cf fuel v := by
  intro fuel
  induction fuel with
  | zero => intro v acc; simp [reconstructAux, backChain]
  | succ fuel ih =>
    intro v acc
    cases h : dictGet cf v with
    | none => simp [reconstructAux, backChain, h]
    | some u => simp [reconstructAux, backChain, h, ih]

/-! ### The relaxation step: explicit equations -/

theorem relax_of_none (m : MazeGrid) (current neighbor : Pos) (s : AState)
    (h : dictGet s.g_score current = none) :
    relax m current s neighbor = s := by
  unfold relax
  rw [h]

theorem relax_of_stale (m : MazeGrid) (current neighbor : Pos) (s : AState)
    (gc : Nat) (h : dictGet s.g_score current = some gc)
    (h2 : ltInf (some (gc + 1)) (dictGet s.g_score neighbor) = false) :
    relax m current s neighbor = s := by
  unfold relax
  rw [h]
  dsimp only
  rw [h2]
  simp

theorem relax_of_improve_inhash (m : MazeGrid) (current neighbor : Pos)
    (s : AState) (gc : Nat) (h : dictGet s.g_score current = some gc)
    (h2 : ltInf (some (gc + 1)) (dictGet s.g_score neighbor) = true)
    (h3 : neighbor ∈ s.open_set_hash) :
    relax m current s neighbor =
      { s with
        came_from := dictSet s.came_from neighbor current,
        g_score := dictSet s.g_score neighbor (gc + 1),
        f_score := dictSet s.f_score neighbor
          (gc + 1 + manhattan_distance neighbor m.goal) } := by
  unfold relax
  rw [h]
  dsimp only
  rw [if_pos h2, if_pos h3]

theorem relax_of_improve_push (m : MazeGrid) (current neighbor : Pos)
    (s : AState) (gc : Nat) (h : dictGet s.g_score current = some gc)
    (h2 : ltInf (some (gc + 1)) (dictGet s.g_score neighbor) = true)
    (h3 : ¬ neighbor ∈ s.open_set_hash) :
    relax m current s neighbor =
      { open_set := s.open_set ++
          [(gc + 1 + manhattan_distance neighbor m.goal, s.counter + 1, neighbor)],
        counter := s.counter + 1,
        came_from := dictSet s.came_from neighbor current,
        g_score := dictSet s.g_score neighbor (gc + 1),
        f_score := dictSet s.f_score neighbor
          (gc + 1 + manhattan_distance neighbor m.goal),
        open_set_hash := s.open_set_hash ++ [neighbor] } := by
  unfold relax
  rw [h]
  dsimp only
  rw [if_pos h2, if_neg h3]

/-! ### Bounding the cost table -/

theorem length_dictSet_present {β : Type} {l : List (Pos × β)} {k : Pos}
    (v : β) (h : k ∈ l.map Prod.fst) : (dictSet l k v).length = l.length := by
  have h1 : (dictSet l k v).length = ((dictSet l k v).map Prod.fst).length :=
    (List.length_map _ _).symm
  rw [h1, keys_dictSet_present v h, List.length_map]

theorem length_dictSet_absent {β : Type} {l : List (Pos × β)} {k : Pos}
    (v : β) (h : ¬ k ∈ l.map Prod.fst) :
    (dictSet l k v).length = l.length + 1 := by
  have h1 : (dictSet l k v).length = ((dictSet l k v).map Prod.fst).length :=
    (List.length_map _ _).symm
  rw [h1, keys_dictSet_absent v h]
  simp

theorem valid_mem_cellsF (m : MazeGrid) (p : Pos) (h : is_valid m p = true) :
    p ∈ ((Finset.range m.rows ×ˢ Finset.range m.cols).image
      (fun rc : Nat × Nat => (((rc.1 : Int), (rc.2 : Int)) : Pos))) := by
  obtain ⟨⟨hb1, hb2, hb3, hb4⟩, -⟩ := (is_valid_iff m p).1 h
  refine Finset.mem_image.2 ⟨(p.1.toNat, p.2.toNat), ?_, ?_⟩
  · refine Finset.mem_product.2 ⟨Finset.mem_range.2 ?_, Finset.mem_range.2 ?_⟩ <;> omega
  · obtain ⟨p1, p2⟩ := p
    simp only [Prod.mk.injEq]
    constructor <;> simp only at hb1 hb2 hb3 hb4 ⊢ <;> omega

theorem gscore_length_le (m : MazeGrid) (s : AState) (hInv : Inv m s) :
    s.g_score.length ≤ m.rows * m.cols + 1 := by
  classical
  have hlen : s.g_score.length = (s.g_score.map Prod.fst).length :=
    (List.length_map _ _).symm
  have hnd : (s.g_score.map Prod.fst).Nodup := hInv.keys_nodup
  have hsub : (s.g_score.map Prod.fst).toFinset ⊆
      insert m.start ((Finset.range m.rows ×ˢ Finset.range m.cols).image
        (fun rc : Nat × Nat => (((rc.1 : Int), (rc.2 : Int)) : Pos))) := by
    intro k hk
    obtain ⟨e, he, hke⟩ := List.mem_map.1 (List.mem_toFinset.1 hk)
    rcases hInv.keys_cells e he with h1 | h1
    · exact Finset.mem_insert.2 (Or.inl (hke ▸ h1))
    · exact Finset.mem_insert.2 (Or.inr (hke ▸ valid_mem_cellsF m e.1 h1))
  have hcard1 : (s.g_score.map Prod.fst).toFinset.card =
      (s.g_score.map Prod.fst).length := List.toFinset_card_of_nodup hnd
  have hcard2 := Finset.card_le_card hsub
  have hcard3 : (insert m.start ((Finset.range m.rows ×ˢ Finset.range m.cols).image
      (fun rc : Nat × Nat => (((rc.1 : Int), (rc.2 : Int)) : Pos)))).card ≤
      m.rows * m.cols + 1 := by
    have h4 := Finset.card_insert_le m.start
      ((Finset.range m.rows ×ˢ Finset.range m.cols).image
        (fun rc : Nat × Nat => (((rc.1 : Int), (rc.2 : Int)) : Pos)))
    have h5 := Finset.card_image_le (s := Finset.range m.rows ×ˢ Finset.range m.cols)
      (f := fun rc : Nat × Nat => (((rc.1 : Int), (rc.2 : Int)) : Pos))
    rw [Finset.card_product, Finset.card_range, Finset.card_range] at h5
    omega
  omega

/-! ### Invariant preservation through one relaxation -/

theorem inv_after_improve (m : MazeGrid) (current neighbor : Pos) (s : AState)
    (hInv : Inv m s) (hmem : neighbor ∈ get_neighbors m current) (gc : Nat)
    (hgc : dictGet s.g_score current = some gc)
    (h2 : ltInf (some (gc + 1)) (dictGet s.g_score neighbor) = true)
    (os2 : List (Nat × Nat × Pos)) (c2 : Nat) (f2 : List (Pos × Nat))
    (hash2 : List Pos)
    (hos2 : ∀ e ∈ os2, e ∈ s.open_set ∨ e.2.2 = neighbor) :
    Inv m { open_set := os2, counter := c2,
            came_from := dictSet s.came_from neighbor current,
            g_score := dictSet s.g_score neighbor (gc + 1),
            f_score := f2, open_set_hash := hash2 } := by
  have hval : is_valid m neighbor = true :=
    ((mem_get_neighbors m current neighbor).1 hmem).2
  have hcn : current ≠ neighbor :=
    orthStep_ne ((mem_get_neighbors m current neighbor).1 hmem).1
  have hns : neighbor ≠ m.start := by
    intro he
    rw [he, hInv.g_start] at h2
    simp [ltInf] at h2
  have hg_self : dictGet (dictSet s.g_score neighbor (gc + 1)) neighbor =
      some (gc + 1) := dictGet_dictSet_self _ _ _
  have hg_ne : ∀ p, p ≠ neighbor →
      dictGet (dictSet s.g_score neighbor (gc + 1)) p = dictGet s.g_score p :=
    fun p hp => dictGet_dictSet_ne _ _ _ _ hp
  have hcf_self : dictGet (dictSet s.came_from neighbor current) neighbor =
      some current := dictGet_dictSet_self _ _ _
  have hcf_ne : ∀ p, p ≠ neighbor →
      dictGet (dictSet s.came_from neighbor current) p =
        dictGet s.came_from p :=
    fun p hp => dictGet_dictSet_ne _ _ _ _ hp
  refine ⟨?_, ?_, ?_, ?_, ?_, ?_, ?_, ?_, ?_⟩
  · dsimp only
    rw [hg_ne m.start (fun he => hns he.symm)]
    exact hInv.g_start
  · dsimp only
    rw [hcf_ne m.start (fun he => hns he.symm)]
    exact hInv.cf_start
  · intro v u hvu
    dsimp only at hvu
    by_cases hv : v = neighbor
    · subst hv
      rw [hcf_self] at hvu
      obtain rfl : current = u := Option.some.inj hvu
      exact hmem
    · rw [hcf_ne v hv] at hvu
      exact hInv.cf_edge v u hvu
  · intro v u hvu
    dsimp only at hvu ⊢
    by_cases hv : v = neighbor
    · subst hv
      rw [hcf_self] at hvu
      obtain rfl : current = u := Option.some.inj hvu
      refine ⟨gc + 1, gc, hg_self, ?_, Nat.lt_succ_self gc⟩
      rw [hg_ne current hcn]
      exact hgc
    · rw [hcf_ne v hv] at hvu
      obtain ⟨a, b, hga, hgb, hba⟩ := hInv.cf_gdec v u hvu
      by_cases hu : u = neighbor
      · subst hu
        rw [hgb] at h2
        simp only [ltInf, decide_eq_true_eq] at h2
        exact ⟨a, gc + 1, by rw [hg_ne v hv]; exact hga, hg_self, by omega⟩
      · exact ⟨a, b, by rw [hg_ne v hv]; exact hga,
          by rw [hg_ne u hu]; exact hgb, hba⟩
  · intro v hv
    dsimp only at hv ⊢
    by_cases hvn : v = neighbor
    · subst hvn
      right
      rw [hcf_self]
      simp
    · rw [hg_ne v hvn] at hv
      rcases hInv.seen_cf v hv with h1 | h1
      · exact Or.inl h1
      · right
        rw [hcf_ne v hvn]
        exact h1
  · intro e he
    dsimp only at he
    rcases mem_dictSet he with h1 | h1
    · right
      rw [h1]
      exact hval
    · exact hInv.keys_cells e h1
  · dsimp only
    by_cases hmemk : neighbor ∈ s.g_score.map Prod.fst
    · rw [keys_dictSet_present _ hmemk]
      exact hInv.keys_nodup
    · rw [keys_dictSet_absent _ hmemk]
      rw [List.nodup_append]
      refine ⟨hInv.keys_nodup, List.nodup_singleton _, ?_⟩
      intro a ha hb
      simp only [List.mem_singleton] at hb
      subst hb
      exact hmemk ha
  · intro e he
    dsimp only at he ⊢
    rcases hos2 e he with h1 | h1
    · exact dictGet_isSome_dictSet _ _ _ _ (hInv.heap_seen e h1)
    · rw [h1, hg_self]
      rfl
  · intro v x hvx
    dsimp only at hvx ⊢
    by_cases hmemk : neighbor ∈ s.g_score.map Prod.fst
    · rw [length_dictSet_present _ hmemk]
      by_cases hv : v = neighbor
      · subst hv
        rw [hg_self] at hvx
        obtain rfl : gc + 1 = x := Option.some.inj hvx
        have hw : ∃ w, dictGet s.g_score v = some w := by
          cases hq : dictGet s.g_score v with
          | none => exact absurd (dictGet_eq_none_iff.1 hq) (by simpa using hmemk)
          | some w => exact ⟨w, rfl⟩
        obtain ⟨w, hw⟩ := hw
        rw [hw] at h2
        simp only [ltInf, decide_eq_true_eq] at h2
        have := hInv.g_bound v w hw
        omega
      · rw [hg_ne v hv] at hvx
        exact hInv.g_bound v x hvx
    · have habs : dictGet s.g_score neighbor = none := dictGet_eq_none_iff.2 hmemk
      rw [length_dictSet_absent _ hmemk]
      by_cases hv : v = neighbor
      · subst hv
        rw [hg_self] at hvx
        obtain rfl : gc + 1 = x := Option.some.inj hvx
        have := hInv.g_bound current gc hgc
        omega
      · rw [hg_ne v hv] at hvx
        have := hInv.g_bound v x hvx
        omega

theorem phiL_decrease (m : MazeGrid) (l : List (Pos × Nat)) (neighbor : Pos)
    (gc : Nat) (hlen : l.length ≤ m.rows * m.cols + 1)
    (hgc_lt : gc < l.length)
    (h2 : ltInf (some (gc + 1)) (dictGet l neighbor) = true) :
    (m.rows * m.cols + 2 - (dictSet l neighbor (gc + 1)).length) *
        (m.rows * m.cols + 2) + sumG (dictSet l neighbor (gc + 1)) + 1 ≤
      (m.rows * m.cols + 2 - l.length) * (m.rows * m.cols + 2) + sumG l := by
  cases hw : dictGet l neighbor with
  | none =>
    have hcount : ¬ neighbor ∈ l.map Prod.fst := dictGet_eq_none_iff.1 hw
    rw [length_dictSet_absent _ hcount, sumG_dictSet_absent _ hw]
    have hsplit : (m.rows * m.cols + 2 - l.length) * (m.rows * m.cols + 2) =
        (m.rows * m.cols + 2 - (l.length + 1)) * (m.rows * m.cols + 2) +
          (m.rows * m.cols + 2) := by
      have he : m.rows * m.cols + 2 - l.length =
          (m.rows * m.cols + 2 - (l.length + 1)) + 1 := by omega
      rw [he]
      ring
    omega
  | some w =>
    have hcount : neighbor ∈ l.map Prod.fst := by
      by_contra hc
      rw [dictGet_eq_none_iff.2 hc] at hw
      simp at hw
    have hlt : gc + 1 < w := by
      rw [hw] at h2
      simpa [ltInf] using h2
    have hsum := sumG_dictSet_present (gc + 1) hw
    rw [length_dictSet_present _ hcount]
    omega

theorem relax_spec (m : MazeGrid) (current neighbor : Pos) (s : AState)
    (hInv : Inv m s) (hmem : neighbor ∈ get_neighbors m current) :
    Inv m (relax m current s neighbor) ∧
    measureM m (relax m current s neighbor) ≤ measureM m s := by
  cases hgc : dictGet s.g_score current with
  | none =>
    rw [relax_of_none m current neighbor s hgc]
    exact ⟨hInv, le_refl _⟩
  | some gc =>
    cases h2 : ltInf (some (gc + 1)) (dictGet s.g_score neighbor) with
    | false =>
      rw [relax_of_stale m current neighbor s gc hgc h2]
      exact ⟨hInv, le_refl _⟩
    | true =>
      have hphi := phiL_decrease m s.g_score neighbor gc
        (gscore_length_le m s hInv) (hInv.g_bound current gc hgc) h2
      by_cases h3 : neighbor ∈ s.open_set_hash
      · rw [relax_of_improve_inhash m current neighbor s gc hgc h2 h3]
        constructor
        · exact inv_after_improve m current neighbor s hInv hmem gc hgc h2
            s.open_set s.counter _ s.open_set_hash (fun e he => Or.inl he)
        · simp only [measureM, phiG]
          omega
      · rw [relax_of_improve_push m current neighbor s gc hgc h2 h3]
        constructor
        · refine inv_after_improve m current neighbor s hInv hmem gc hgc h2
            _ _ _ _ ?_
          intro e he
          rcases List.mem_append.1 he with h4 | h4
          · exact Or.inl h4
          · simp only [List.mem_singleton] at h4
            subst h4
            exact Or.inr rfl
        · simp only [measureM, phiG]
          simp only [List.length_append, List.length_singleton]
          omega

/-! ### Invariant preservation through one loop iteration -/

theorem foldl_relax_spec (m : MazeGrid) (current : Pos) :
    ∀ (l : List Pos) (s : AState), Inv m s →
      (∀ n ∈ l, n ∈ get_neighbors m current) →
      Inv m (l.foldl (relax m current) s) ∧
      measureM m (l.foldl (relax m current) s) ≤ measureM m s := by
  intro l
  induction l with
  | nil => intro s h _; exact ⟨h, le_refl _⟩
  | cons n rest ih =>
    intro s hInv hsub
    simp only [List.foldl_cons]
    have h1 := relax_spec m current n s hInv (hsub n (List.mem_cons_self _ _))
    have h2 := ih (relax m current s n) h1.1
      (fun x hx => hsub x (List.mem_cons_of_mem _ hx))
    exact ⟨h2.1, le_trans h2.2 h1.2⟩

theorem expand_spec (m : MazeGrid) (current : Pos) (s : AState)
    (hInv : Inv m s) :
    Inv m (expand m current s) ∧
    measureM m (expand m current s) ≤ measureM m s :=
  foldl_relax_spec m current (get_neighbors m current) s hInv (fun _ hn => hn)

theorem step_cont_spec (m : MazeGrid) (s s1 : AState) (hInv : Inv m s)
    (h : a_star_step m s = StepRes.cont s1) :
    Inv m s1 ∧ measureM m s1 < measureM m s := by
  unfold a_star_step at h
  cases hp : popMin s.open_set with
  | none => rw [hp] at h; simp at h
  | some pr =>
    obtain ⟨e, rest⟩ := pr
    rw [hp] at h
    dsimp only at h
    by_cases hg : e.2.2 = m.goal
    · rw [if_pos hg] at h; simp at h
    · rw [if_neg hg] at h
      have hs1 : s1 = expand m e.2.2 (popState s e.2.2 rest) := by
        injection h with h2
        exact h2.symm
      have hInvp : Inv m (popState s e.2.2 rest) := by
        refine ⟨hInv.g_start, hInv.cf_start, hInv.cf_edge, hInv.cf_gdec,
          hInv.seen_cf, hInv.keys_cells, hInv.keys_nodup, ?_, hInv.g_bound⟩
        intro e2 he2
        exact hInv.heap_seen e2 (popMin_rest_mem hp e2 he2)
      have hexp := expand_spec m e.2.2 _ hInvp
      have hlen := popMin_length hp
      subst hs1
      refine ⟨hexp.1, ?_⟩
      have hM : measureM m (popState s e.2.2 rest) + 1 = measureM m s := by
        simp only [measureM, phiG, popState]
        omega
      omega

/-! ### The reconstructed path -/

theorem backChain_spec (m : MazeGrid) (s : AState) (hInv : Inv m s) :
    ∀ γ v, dictGet s.g_score v = some γ → ∀ fuel, γ ≤ fuel →
      List.Chain' (fun a b => dictGet s.came_from a = some b)
        (v :: backChain s.came_from fuel v) ∧
      (v :: backChain s.came_from fuel v).getLast? = some m.start ∧
      Relation.ReflTransGen (stepAdj m) m.start v ∧
      (∀ p ∈ v :: backChain s.came_from fuel v,
        p = m.start ∨ is_valid m p = true) := by
  intro γ
  induction γ using Nat.strong_induction_on with
  | _ γ ihγ =>
    intro v hγv fuel hfuel
    have hval : v = m.start ∨ is_valid m v = true :=
      hInv.keys_cells (v, γ) (mem_of_dictGet_some hγv)
    cases hcf : dictGet s.came_from v with
    | none =>
      have hvs : v = m.start := by
        rcases hInv.seen_cf v (by rw [hγv]; simp) with h1 | h1
        · exact h1
        · exact absurd hcf h1
      have hbc : backChain s.came_from fuel v = [] := by
        cases fuel with
        | zero => rfl
        | succ f => simp [backChain, hcf]
      subst hvs
      rw [hbc]
      refine ⟨List.chain'_singleton _, rfl, Relation.ReflTransGen.refl, ?_⟩
      intro p hp
      simp only [List.mem_singleton] at hp
      exact Or.inl hp
    | some u =>
      obtain ⟨a, b, hga, hgb, hba⟩ := hInv.cf_gdec v u hcf
      obtain rfl : a = γ := by
        rw [hγv] at hga
        exact (Option.some.inj hga).symm
      obtain ⟨f, rfl⟩ : ∃ f, fuel = f + 1 := by
        cases fuel with
        | zero => omega
        | succ f => exact ⟨f, rfl⟩
      have hbc : backChain s.came_from (f + 1) v =
          u :: backChain s.came_from f u := by
        simp [backChain, hcf]
      rw [hbc]
      have hrec := ihγ b hba u hgb f (by omega)
      have hedge : v ∈ get_neighbors m u := hInv.cf_edge v u hcf
      refine ⟨?_, ?_, ?_, ?_⟩
      · rw [List.chain'_cons]
        exact ⟨hcf, hrec.1⟩
      · rw [List.getLast?_cons_cons]
        exact hrec.2.1
      · exact Relation.ReflTransGen.tail hrec.2.2.1 hedge
      · intro p hp
        rcases List.mem_cons.1 hp with h1 | h1
        · subst h1
          exact hval
        · exact hrec.2.2.2 p h1

theorem step_done_some (m : MazeGrid) (s : AState) (path : List Pos)
    (hInv : Inv m s) (h : a_star_step m s = StepRes.done (some path)) :
    PathSpec m path := by
  unfold a_star_step at h
  cases hp : popMin s.open_set with
  | none => rw [hp] at h; simp at h
  | some pr =>
    obtain ⟨e, rest⟩ := pr
    rw [hp] at h
    dsimp only at h
    by_cases hg : e.2.2 = m.goal
    · rw [if_pos hg] at h
      have hpath : path =
          reconstruct_path s.came_from e.2.2 (m.rows * m.cols + 1) := by
        injection h with h2
        exact (Option.some.inj h2).symm
      have hseen : (dictGet s.g_score e.2.2).isSome = true :=
        hInv.heap_seen e (popMin_mem hp)
      obtain ⟨γ, hγ⟩ : ∃ γ, dictGet s.g_score e.2.2 = some γ := by
        cases hq : dictGet s.g_score e.2.2 with
        | none => rw [hq] at hseen; simp at hseen
        | some w => exact ⟨w, rfl⟩
      have hbound : γ ≤ m.rows * m.cols := by
        have h1 := hInv.g_bound _ _ hγ
        have h2 := gscore_length_le m s hInv
        omega
      obtain ⟨hchain, hlast, hrt, hmem⟩ :=
        backChain_spec m s hInv γ e.2.2 hγ (m.rows * m.cols + 1) (by omega)
      have hre : reconstruct_path s.came_from e.2.2 (m.rows * m.cols + 1) =
          (e.2.2 :: backChain s.came_from (m.rows * m.cols + 1) e.2.2).reverse := by
        unfold reconstruct_path
        rw [reconstructAux_eq_backChain]
        rfl
      rw [hpath, hre]
      refine ⟨?_, ?_, ?_, ?_, ?_⟩
      · rw [List.head?_reverse]
        exact hlast
      · rw [List.getLast?_reverse]
        simp [hg]
      · rw [List.chain'_reverse]
        exact hchain.imp (fun a b hab => hInv.cf_edge a b hab)
      · intro p hp
        exact hmem p (List.mem_reverse.1 hp)
      · rw [← hg]
        exact hrt
    · rw [if_neg hg] at h
      simp at h

/-! ### Running the loop -/

theorem run_result_pathspec (m : MazeGrid) :
    ∀ (fuel : Nat) (s : AState), Inv m s →
      ∀ path, a_star_run m fuel s = some (some path) → PathSpec m path := by
  intro fuel
  induction fuel with
  | zero => intro s _ path h; simp [a_star_run] at h
  | succ fuel ih =>
    intro s hInv path h
    rw [a_star_run] at h
    cases hstep : a_star_step m s with
    | done r =>
      rw [hstep] at h
      dsimp only at h
      obtain rfl : r = some path := Option.some.inj h
      exact step_done_some m s path hInv hstep
    | cont s1 =>
      rw [hstep] at h
      dsimp only at h
      exact ih s1 (step_cont_spec m s s1 hInv hstep).1 path h

theorem run_terminates (m : MazeGrid) :
    ∀ (fuel : Nat) (s : AState), Inv m s → measureM m s < fuel →
      (a_star_run m fuel s).isSome = true := by
  intro fuel
  induction fuel with
  | zero => intro s _ h; omega
  | succ fuel ih =>
    intro s hInv hM
    rw [a_star_run]
    cases hstep : a_star_step m s with
    | done r => rfl
    | cont s1 =>
      dsimp only
      have hsc := step_cont_spec m s s1 hInv hstep
      exact ih s1 hsc.1 (by omega)

theorem runState_inv (m : MazeGrid) :
    ∀ (n : Nat) (s s2 : AState), Inv m s → runState m n s = some s2 →
      Inv m s2 := by
  intro n
  induction n with
  | zero =>
    intro s s2 h hr
    rw [runState] at hr
    exact (Option.some.inj hr) ▸ h
  | succ n ih =>
    intro s s2 hInv hr
    rw [runState] at hr
    cases hstep : a_star_step m s with
    | cont s1 =>
      rw [hstep] at hr
      dsimp only at hr
      exact ih s1 s2 (step_cont_spec m s s1 hInv hstep).1 hr
    | done r =>
      rw [hstep] at hr
      simp at hr

theorem initState_inv (m : MazeGrid) : Inv m (initState m) := by
  refine ⟨?_, rfl, ?_, ?_, ?_, ?_, ?_, ?_, ?_⟩
  · simp [initState, dictGet]
  · intro v u h
    simp [initState, dictGet] at h
  · intro v u h
    simp [initState, dictGet] at h
  · intro v h
    left
    simp only [initState, dictGet] at h
    by_cases hv : m.start = v
    · exact hv.symm
    · rw [if_neg hv] at h
      simp at h
  · intro e he
    simp only [initState, List.mem_singleton] at he
    subst he
    exact Or.inl rfl
  · simp [initState]
  · intro e he
    simp only [initState, List.mem_singleton] at he
    subst he
    simp [initState, dictGet]
  · intro v x h
    simp only [initState] at h ⊢
    rw [dictGet] at h
    by_cases hv : m.start = v
    · rw [if_pos hv] at h
      obtain rfl : (0 : Nat) = x := Option.some.inj h
      simp
    · rw [if_neg hv] at h
      simp [dictGet] at h

theorem measureM_init_lt (m : MazeGrid) :
    measureM m (initState m) < searchFuel m := by
  have h2 : (2 : Nat) ≤ m.rows * m.cols + 2 := by omega
  simp only [measureM, phiG, initState, searchFuel, sumG, List.map_cons,
    List.map_nil, List.sum_cons, List.sum_nil, List.length_singleton]
  have h3 : m.rows * m.cols + 2 - 1 = m.rows * m.cols + 1 := by omega
  rw [h3]
  have e : (m.rows * m.cols + 2) ^ 3 =
      (m.rows * m.cols + 2) * ((m.rows * m.cols + 2) * (m.rows * m.cols + 2)) := by
    ring
  have h4 : (m.rows * m.cols + 1) * (m.rows * m.cols + 2) <
      (m.rows * m.cols + 2) * (m.rows * m.cols + 2) :=
    mul_lt_mul_of_pos_right (by omega) (by omega)
  have h5 : 2 * ((m.rows * m.cols + 2) * (m.rows * m.cols + 2)) ≤
      (m.rows * m.cols + 2) * ((m.rows * m.cols + 2) * (m.rows * m.cols + 2)) :=
    Nat.mul_le_mul_right _ (by omega)
  omega

theorem search_eq_some_run {m : MazeGrid} {path : List Pos}
    (h : a_star_search m = some path) :
    a_star_run m (searchFuel m) (initState m) = some (some path) := by
  unfold a_star_search at h
  cases hr : a_star_run m (searchFuel m) (initState m) with
  | none => rw [hr] at h; simp at h
  | some r =>
    rw [hr] at h
    simp only [Option.getD_some] at h
    rw [h]

theorem mk_start_valid {grid : List (List Char)} {m : MazeGrid}
    (h : mkMazeGrid grid = some m) : is_valid m m.start = true := by
  obtain ⟨hgr, hrows, hcols, hS, hG⟩ := mkMazeGrid_eq_some h
  obtain ⟨r, c, hp, hr, hc, hcell, -⟩ := find_position_eq_some hS
  rw [is_valid_iff, hp]
  have hb1 : ((r : Int), (c : Int)).1 = (r : Int) := rfl
  have hb2 : ((r : Int), (c : Int)).2 = (c : Int) := rfl
  rw [hrows] at *
  rw [hcols] at *
  refine ⟨⟨?_, ?_, ?_, ?_⟩, ?_⟩
  · simp
  · simp only [hb1]
    exact_mod_cast hr
  · simp
  · simp only [hb2]
    exact_mod_cast hc
  · simp only [hb1, hb2, Int.toNat_natCast, hgr]
    rw [hcell]
    decide

/-! ### Claim C2: returned paths are orthogonal and wall-free -/

/-- C2: on any constructed grid, a returned path has consecutive cells that
differ by exactly one unit in exactly one coordinate, every cell on it is
passable, and in particular no cell on it carries the wall marker `'#'`. -/
theorem path_orthogonal_and_wall_free (grid : List (List Char))
    (m : MazeGrid) (path : List Pos) (hmk : mkMazeGrid grid = some m)
    (hrun : a_star_search m = some path) :
    List.Chain' orthStep path ∧ (∀ p ∈ path, is_valid m p = true) ∧
    (∀ p ∈ path, cellAt m.grid p.1.toNat p.2.toNat ≠ '#') := by
  have hr := search_eq_some_run hrun
  have hps := run_result_pathspec m (searchFuel m) (initState m)
    (initState_inv m) path hr
  obtain ⟨hh, hl, hchain, hmem, -⟩ := hps
  have hvalid : ∀ p ∈ path, is_valid m p = true := by
    intro p hp
    rcases hmem p hp with h1 | h1
    · rw [h1]
      exact mk_start_valid hmk
    · exact h1
  refine ⟨?_, hvalid, ?_⟩
  · exact hchain.imp
      (fun a b hab => ((mem_get_neighbors m a b).1 hab).1)
  · intro p hp
    exact ((is_valid_iff m p).1 (hvalid p hp)).2

/-- Witness for C2 on the spec's 3×3 scenario grid. -/
theorem path_orthogonal_and_wall_free_witness :
    List.Chain' orthStep tpath3 ∧ (∀ p ∈ tpath3, is_valid m3 p = true) ∧
    (∀ p ∈ tpath3, cellAt m3.grid p.1.toNat p.2.toNat ≠ '#') :=
  path_orthogonal_and_wall_free tgrid3 m3 tpath3 rfl rfl

/-! ### Claim C10: the start has no predecessor; path endpoints -/

/-- C10: throughout every run of the search the start cell never acquires a
`came_from` predecessor (a tentative score `g[current] + 1 ≥ 1` can never
beat `g[start] = 0`); consequently the backtracking loop of
`reconstruct_path` stops at `start`, and a returned path always begins at
`start` and ends at `goal`. -/
theorem came_from_start_none_and_endpoints (m : MazeGrid) :
    (∀ n s, runState m n (initState m) = some s →
      dictGet s.came_from m.start = none) ∧
    (∀ path, a_star_search m = some path →
      path.head? = some m.start ∧ path.getLast? = some m.goal) := by
  constructor
  · intro n s h
    exact (runState_inv m n (initState m) s (initState_inv m) h).cf_start
  · intro path h
    have hps := run_result_pathspec m _ _ (initState_inv m) path
      (search_eq_some_run h)
    exact ⟨hps.1, hps.2.1⟩

/-- Witness for C10 on the spec's 3×3 scenario grid. -/
theorem came_from_start_none_and_endpoints_witness :
    dictGet (initState m3).came_from m3.start = none ∧
    tpath3.head? = some m3.start ∧ tpath3.getLast? = some m3.goal :=
  ⟨(came_from_start_none_and_endpoints m3).1 0 (initState m3) rfl,
    (came_from_start_none_and_endpoints m3).2 tpath3 rfl⟩

/-! ### Claim C3: termination, and None on unreachable goals -/

/-- C3: the search loop always returns within its fuel (the frontier empties
or the goal is popped — never an exception or an endless loop), and whenever
it returns a path the goal is reachable from the start; contrapositively, on
every grid whose goal is unreachable it returns the no-path indicator
`none`.  The spec's concrete unreachable scenario (a solid wall row with no
gaps) indeed returns `none`. -/
theorem search_terminates_and_unreachable_gives_none :
    (∀ m : MazeGrid,
      (a_star_run m (searchFuel m) (initState m)).isSome = true ∧
      (a_star_search m = none ∨
        Relation.ReflTransGen (stepAdj m) m.start m.goal)) ∧
    a_star_search mU = none := by
  constructor
  · intro m
    refine ⟨run_terminates m (searchFuel m) (initState m) (initState_inv m)
      (measureM_init_lt m), ?_⟩
    cases hs : a_star_search m with
    | none => exact Or.inl rfl
    | some path =>
      right
      have hps := run_result_pathspec m _ _ (initState_inv m) path
        (search_eq_some_run hs)
      exact hps.2.2.2.2
  · rfl

/-- Witness for C3 at the spec's wall-separated grid. -/
theorem search_terminates_and_unreachable_gives_none_witness :
    (a_star_run mU (searchFuel mU) (initState mU)).isSome = true :=
  (search_terminates_and_unreachable_gives_none.1 mU).1

end MazeAStar
